import Mathlib

/-!
Verification of the decision-tree-to-strategies converter.

The Python source (`src/tree_to_strategies/models.py` and
`src/tree_to_strategies/app.py`) is shallowly embedded below:

* Python `str` is Lean `String`; `str.split(sep)` is `pySplitOn`,
  `str.split(sep, 1)` is `pySplit1`, `sub in s` is `strContains`,
  `str.strip()` is `pyStrip`, `str.removeprefix(p)` is `pyDropPre`.
* Python `float` values are modelled as exact rationals `ℚ`; `pyFloat`
  models CPython `float()` restricted to plain decimal literals (optional
  sign, digits, one optional dot), which are the only float strings the
  program's grammar uses; ordering and equality of such literals agree
  between `ℚ` and IEEE binary64 in the ranges exercised here.
* Python `dict` (insertion ordered) is an association list; assignment
  `d[k] = v` is `treeInsert` / `BEntries.insert` / `appendGroup`
  (overwrite in place when the key exists, append otherwise), matching
  CPython dict-literal and `defaultdict` semantics.
* Python exceptions become the `PErr` error type of `Except`.
* The process-wide flag `src.feature_flags.IGNORE_ALWAYS_FALSE_STRATEGIES`
  (its module is configuration outside the core sources) is threaded as an
  explicit boolean parameter `flag`.
* The unbounded Python recursion of `_tree_to_binary_tree` takes explicit
  fuel; exhausting it is `PErr.recursionError` (Python's RecursionError).
-/

deriving instance DecidableEq for Except

namespace DTS

/-- Errors raised by the Python code, one constructor per distinct
exception site: `valueError` for unpack/`float()` failures
(`UnparsableLine` in the spec), `invalidLeafValue` for the Leaf range
check, `duplicateId` for the duplicate-identifier check, `indexError`
for `split(":[", 1)[1]` / `eligible_conditions[0]` on missing data,
`keyError` for a dangling `yes`/`no` reference, `stopIteration` for
`next(iter(...))` on an empty dict, `nodelessTree` for
`NodelessTreeError`, and `recursionError` for exhausted recursion. -/
inductive PErr where
  | valueError
  | invalidLeafValue (v : ℚ)
  | duplicateId (id : String)
  | indexError
  | keyError (id : String)
  | stopIteration
  | nodelessTree
  | recursionError
deriving DecidableEq, Repr

/-!
String primitives. The core library's `String.splitOn`, `String.trim`
and friends are compiled through well-founded recursion and do not
reduce inside the kernel, so the Python string operations are modelled
here by structurally recursive functions over `String.data`.
-/

/-- Does `l` end with `sep`? -/
def endsWithC (l sep : List Char) : Bool :=
  List.isPrefixOf sep.reverse l.reverse

/-- Scan `l` one character at a time, cutting a field each time the
accumulated token ends with the (nonempty) separator; cutting at the
earliest completed occurrence is cutting at the leftmost occurrence,
which is CPython `str.split` semantics. -/
def splitOnCAux (sep : List Char) : List Char → List Char → List (List Char)
  | [], token => [token]
  | c :: rest, token =>
    let token2 := token ++ [c]
    if endsWithC token2 sep then
      (token2.take (token2.length - sep.length)) :: splitOnCAux sep rest []
    else
      splitOnCAux sep rest token2

/-- Python `s.split(sep)` for a nonempty `sep` (the program never splits
on an empty separator). -/
def pySplitOn (s sep : String) : List String :=
  if sep.data.isEmpty then [s]
  else (splitOnCAux sep.data s.data []).map (fun cs => ⟨cs⟩)

/-- `sub in s` for a nonempty Python substring test. -/
def strContains (s sub : String) : Bool :=
  (pySplitOn s sub).length != 1

/-- Python `sep.join(parts)` (used to rebuild the remainder for
`split(sep, 1)`). -/
def pyJoin (sep : String) : List String → String
  | [] => ""
  | [x] => x
  | x :: rest => x ++ sep ++ pyJoin sep rest

/-- Python `s.split(sep, 1)`. -/
def pySplit1 (s sep : String) : List String :=
  match pySplitOn s sep with
  | [] => [s]
  | [x] => [x]
  | x :: rest => [x, pyJoin sep rest]

/-- The whitespace test of Python `str.strip` (the characters the
program's inputs can carry). -/
def pyIsWS (c : Char) : Bool :=
  c == ' ' || c == '\t' || c == '\n' || c == '\r'

/-- Python `s.strip()`. -/
def pyStrip (s : String) : String :=
  ⟨((s.data.dropWhile pyIsWS).reverse.dropWhile pyIsWS).reverse⟩

/-- Python `s.startswith(p)`. -/
def pyStartsWith (s p : String) : Bool :=
  List.isPrefixOf p.data s.data

/-- Python `s[n:]` for dropping a known prefix length. -/
def pyDrop (s : String) (n : Nat) : String :=
  ⟨s.data.drop n⟩

/-- Python `s.removeprefix(p)`. -/
def pyDropPre (s p : String) : String :=
  if pyStartsWith s p then pyDrop s p.data.length else s

/-- Digit string to `Nat`; `none` on a non-digit. -/
def parseNatDigitsAux : List Char → Nat → Option Nat
  | [], acc => some acc
  | c :: cs, acc =>
    if c.isDigit then parseNatDigitsAux cs (acc * 10 + (c.toNat - 48)) else none

/-- Nonempty digit string to `Nat`. -/
def parseNatDigits : List Char → Option Nat
  | [] => none
  | c :: cs => parseNatDigitsAux (c :: cs) 0

/-- Models CPython `float()` on plain decimal literals, as an exact
rational: optional surrounding whitespace, optional sign, digits with at
most one dot (at least one digit overall). Exponents/`inf`/`nan` are not
modelled; the program's inputs never use them, and ordering and equality
of such literals agree between `ℚ` and IEEE binary64 in the ranges the
program tests. The rational is built with `mkRat` on integer arithmetic
(kernel-reducible), never with `Rat` field operations. -/
def pyFloat (s : String) : Option ℚ :=
  let t := pyStrip s
  let (neg, body) :=
    if pyStartsWith t "-" then (true, pyDrop t 1)
    else if pyStartsWith t "+" then (false, pyDrop t 1)
    else (false, t)
  let signed : Nat → Nat → ℚ := fun num den =>
    if neg then mkRat (-(num : Int)) den else mkRat num den
  match pySplitOn body "." with
  | [intPart] => (parseNatDigits intPart.data).map (fun n => signed n 1)
  | [intPart, fracPart] =>
    if intPart.data.isEmpty && fracPart.data.isEmpty then none
    else
      match (if intPart.data.isEmpty then some 0 else parseNatDigits intPart.data),
            (if fracPart.data.isEmpty then some 0 else parseNatDigits fracPart.data) with
      | some ip, some fp =>
        some (signed (ip * 10 ^ fracPart.data.length + fp) (10 ^ fracPart.data.length))
      | _, _ => none
  | _ => none

/-- `models.Condition`: an immutable feature (in)equality test. -/
structure Condition where
  feature : String
  value : String
  is_equal : Bool
deriving DecidableEq, Repr

/-- `Condition.from_string`: detect `!=` with precedence over `=`, then
split; the Python 2-tuple unpack of `string.split(operator)` raises
`ValueError` unless there are exactly two parts. -/
def Condition.from_string (s : String) : Except PErr Condition :=
  let operator := if strContains s "!=" then "!=" else "="
  match pySplitOn s operator with
  | [feature, value] => .ok ⟨feature, value, operator == "="⟩
  | _ => .error .valueError

/-- `models.Leaf`: a leaf value (Python float as `ℚ`). -/
structure Leaf where
  value : ℚ
deriving DecidableEq, Repr

/-- `Leaf.__post_init__`: constructing a Leaf validates `0 <= value <= 1`
and raises `ValueError` otherwise; the value is stored unchanged. -/
def mkLeaf (v : ℚ) : Except PErr Leaf :=
  if 0 ≤ v ∧ v ≤ 1 then .ok ⟨v⟩ else .error (.invalidLeafValue v)

/-- `Leaf.from_standardized_string`: `_, value = definition.split(":leaf=")`
(exactly two parts or `ValueError`), then `float(value)`, then construction. -/
def Leaf.from_standardized_string (definition : String) : Except PErr Leaf :=
  match pySplitOn definition ":leaf=" with
  | [_, value] =>
    match pyFloat value with
    | some v => mkLeaf v
    | none => .error .valueError
  | _ => .error .valueError

/-- `models.Node`: an ordered tuple of conditions plus branch ids. -/
structure Node where
  eligible_conditions : List Condition
  yes : String
  no : String
deriving DecidableEq, Repr

/-- Maps `Condition.from_string` over the raw condition strings,
propagating the first error (the Python generator in `tuple(...)`). -/
def conditionsFromStrings : List String → Except PErr (List Condition)
  | [] => .ok []
  | s :: rest => do
    let c ← Condition.from_string s
    let cs ← conditionsFromStrings rest
    .ok (c :: cs)

/-- `Node.from_standardized_string`: `definition.split(":[", 1)[1]`
(IndexError when `:[` is absent), `.split("] ", 1)` unpacked into two
(ValueError otherwise), branches split on `,` into exactly two, prefixes
`yes=`/`no=` removed and stripped; the condition is split on `||or||`
whenever that combinator occurs anywhere in the line — with NO bound on
the number of operands. -/
def Node.from_standardized_string (definition : String) : Except PErr Node := do
  let afterBracket ←
    match pySplit1 definition ":[" with
    | [_, rest] => Except.ok rest
    | _ => Except.error PErr.indexError
  let (raw_condition, branches) ←
    match pySplit1 afterBracket "] " with
    | [rc, br] => Except.ok (rc, br)
    | _ => Except.error PErr.valueError
  let (yes, no) ←
    match pySplitOn branches "," with
    | [y, n] => Except.ok (y, n)
    | _ => Except.error PErr.valueError
  let yes := pyStrip (pyDropPre yes "yes=")
  let no := pyStrip (pyDropPre no "no=")
  let raw_conditions :=
    if strContains definition "||or||" then pySplitOn raw_condition "||or||"
    else [raw_condition]
  let conditions ← conditionsFromStrings raw_conditions
  .ok ⟨conditions, yes, no⟩

/-- `models.Strategy`: a path's condition tuple and its leaf. -/
structure Strategy where
  conditions : List Condition
  value : Leaf
deriving DecidableEq, Repr

/-- The contradictory-pair test from the body of
`Strategy.is_not_always_false`: same feature, equality on two different
values, or same feature and value with opposite equality. -/
def pairContra (a b : Condition) : Bool :=
  (a.feature == b.feature && a.value != b.value && (a.is_equal && b.is_equal)) ||
  (a.feature == b.feature && a.value == b.value && a.is_equal != b.is_equal)

/-- The `defaultdict(list)` grouping step: append `c` to the group of key
`k`, creating the group at the end on first access. -/
def appendGroup : List (String × List Condition) → String → Condition →
    List (String × List Condition)
  | [], k, c => [(k, [c])]
  | (k0, g) :: rest, k, c =>
    if k0 = k then (k0, g ++ [c]) :: rest else (k0, g) :: appendGroup rest k c

/-- `conditions_grouped_by_feature` built by the loop in
`Strategy.is_not_always_false`. -/
def groupByFeature (conds : List Condition) : List (String × List Condition) :=
  conds.foldl (fun acc c => appendGroup acc c.feature c) []

/-- The nested pair loop of `Strategy.is_not_always_false` over one
feature group: any later condition contradicting an earlier one. -/
def groupHasContra : List Condition → Bool
  | [] => false
  | c :: rest => rest.any (pairContra c) || groupHasContra rest

/-- `Strategy.is_not_always_false`: no feature group holds a
contradictory pair. -/
def is_not_always_false (conds : List Condition) : Bool :=
  !((groupByFeature conds).any (fun g => groupHasContra g.2))

/-- A parsed line: `Leaf | Node`, the value type of the parser's dict. -/
inductive Entry where
  | leaf (l : Leaf)
  | node (n : Node)
deriving DecidableEq, Repr

/-- `local_types.Tree = dict[str, Leaf | Node]` as an insertion-ordered
association list. -/
def Tree := List (String × Entry)

/-- Python dict lookup `tree[k]` (first matching key). -/
def treeGet (t : Tree) (k : String) : Option Entry :=
  (List.find? (fun p => p.1 == k) t).map (fun p => p.2)

/-- Python dict assignment `d[k] = v`: overwrite in place when the key
exists, append otherwise. -/
def treeInsert : Tree → String → Entry → Tree
  | [], k, v => [(k, v)]
  | (k0, v0) :: rest, k, v =>
    if k0 == k then (k0, v) :: rest else (k0, v0) :: treeInsert rest k v

mutual

/-- `local_types.BinaryTree = dict[Condition, dict[bool, ...]]` where the
nested values are dicts, Leaves or `None`: `split` carries the outer
dict's entries, each mapping a `Condition` to its `True`/`False`
branches; `skip` is the `None` redundant-strategy sentinel. -/
inductive BT where
  | leaf (l : Leaf)
  | skip
  | split (entries : BEntries)

/-- Entries of one `dict[Condition, dict[bool, BinaryTree | Leaf | None]]`
in insertion order. -/
inductive BEntries where
  | nil
  | cons (c : Condition) (tbr : BT) (fbr : BT) (rest : BEntries)

end

/-- Python dict assignment on a condition-keyed dict: overwrite the
branches in place when the condition is already a key, append otherwise.
Dict literals `{k1: v1, k2: v2}` evaluate as successive assignments, so a
repeated key keeps its first position and its last value. -/
def BEntries.insert : BEntries → Condition → BT → BT → BEntries
  | .nil, c, t, f => .cons c t f .nil
  | .cons c0 t0 f0 rest, c, t, f =>
    if c0 = c then .cons c0 t f rest else .cons c0 t0 f0 (rest.insert c t f)

/-- `app._parse_tree_row`: dispatch on `":leaf" in row`. -/
def parseTreeRow (row : String) : Except PErr Entry :=
  if strContains row ":leaf" then (Leaf.from_standardized_string row).map Entry.leaf
  else (Node.from_standardized_string row).map Entry.node

/-- The leading identifier of a line: `line.split(":", 1)[0]`. -/
def lineId (line : String) : String :=
  (pySplitOn line ":").headD line

/-- The parsing loop of `app.parse_tree`: skip falsy (empty) lines, raise
`ValueError` on a duplicate identifier BEFORE parsing the row, then parse
and insert. -/
def parseRowsGo : List String → Tree → Except PErr Tree
  | [], acc => .ok acc
  | line :: rest, acc =>
    if line.data.isEmpty then parseRowsGo rest acc
    else if (treeGet acc (lineId line)).isSome then
      .error (.duplicateId (lineId line))
    else
      match parseTreeRow line with
      | .error e => .error e
      | .ok entry => parseRowsGo rest (treeInsert acc (lineId line) entry)

/-- Dict lookup `tree[id]` raising `KeyError` when absent (a dangling
`yes`/`no` reference). -/
def treeGetE (t : Tree) (k : String) : Except PErr Entry :=
  match treeGet t k with
  | some e => .ok e
  | none => .error (.keyError k)

/-- `app._tree_to_binary_tree` with explicit recursion fuel. A node with
exactly two eligible conditions expands by De Morgan into the two-entry
dict with sentinel branches; any other node (one condition, but also
three or more — the code never checks an upper bound) is split on
`eligible_conditions[0]` alone. Branch targets are dereferenced in
source evaluation order (`yes` before `no`). -/
def tree_to_binary_tree (tree : Tree) : Nat → Entry → Except PErr BT
  | 0, _ => .error .recursionError
  | _ + 1, .leaf l => .ok (.leaf l)
  | fuel + 1, .node n =>
    if n.eligible_conditions.length = 2 then
      match n.eligible_conditions with
      | [c0, c1] => do
        let yesEntry ← treeGetE tree n.yes
        let yesBT ← tree_to_binary_tree tree fuel yesEntry
        let noEntry ← treeGetE tree n.no
        let noBT ← tree_to_binary_tree tree fuel noEntry
        .ok (.split
          ((BEntries.nil.insert c0 yesBT
            (.split (BEntries.nil.insert c1 .skip noBT))).insert c1 yesBT .skip))
      | _ => .error .indexError
    else
      match n.eligible_conditions with
      | [] => .error .indexError
      | c0 :: _ => do
        let yesEntry ← treeGetE tree n.yes
        let yesBT ← tree_to_binary_tree tree fuel yesEntry
        let noEntry ← treeGetE tree n.no
        let noBT ← tree_to_binary_tree tree fuel noEntry
        .ok (.split (BEntries.nil.insert c0 yesBT noBT))

/-- The `raw_tree` list of `app.parse_tree`:
`[line.strip() for line in tree.splitlines()]`. (`splitlines` is split on
a newline; the spurious trailing empty line this produces for a
newline-terminated input is blank and skipped by the parsing loop, so
the outcome is unchanged.) -/
def parsedLines (s : String) : List String :=
  (pySplitOn s "\n").map pyStrip

/-- `app.parse_tree`: strip each line, run the parsing loop, resolve the
root as the first inserted entry (`next(iter(tree.values()))`, raising
`StopIteration` on an empty dict), convert, and reject a bare Leaf with
`NodelessTreeError`. -/
def parse_tree (s : String) (fuel : Nat) : Except PErr BT := do
  let raw_tree := parsedLines s
  let parsed_tree ← parseRowsGo raw_tree []
  let root ←
    match parsed_tree with
    | [] => Except.error PErr.stopIteration
    | (_, e) :: _ => Except.ok e
  let binary_tree ← tree_to_binary_tree parsed_tree fuel root
  match binary_tree with
  | .leaf _ => .error .nodelessTree
  | bt => .ok bt

/-- The negated condition built in `crawl`: flip `is_equal`, keep feature
and value. -/
def negCond (c : Condition) : Condition :=
  ⟨c.feature, c.value, !c.is_equal⟩

/-- Python `set.add` on the model of a `set` as the insertion-ordered,
duplicate-free list of its elements: a no-op when an equal element is
already present. Two Python sets are equal iff they hold the same
elements; two values of this model holding the same elements differ only
in insertion order, which no claim depends on. -/
def pySetAdd (acc : List Strategy) (s : Strategy) : List Strategy :=
  if s ∈ acc then acc else acc ++ [s]

mutual

/-- The `crawl` closure of `app.read_strategies_from_tree`, threading the
`strategies` set. At a Leaf the strategy is added unless the flag
(`IGNORE_ALWAYS_FALSE_STRATEGIES`) is set and the strategy is always
false; `None` adds nothing; a dict is traversed entry by entry, the true
branch extending the accumulated conditions with the condition and the
false branch with its negation (`crawl(next_subtree[True], ...)` runs
before `crawl(next_subtree[False], ...)`). -/
def crawlBT (flag : Bool) : BT → List Condition → List Strategy → List Strategy
  | .leaf l, conds, acc =>
    if !flag || is_not_always_false conds then pySetAdd acc ⟨conds, l⟩ else acc
  | .skip, _, acc => acc
  | .split es, conds, acc => crawlEs flag es conds acc

/-- `crawl` iterating `subtree.items()` in insertion order. -/
def crawlEs (flag : Bool) : BEntries → List Condition → List Strategy → List Strategy
  | .nil, _, acc => acc
  | .cons c tbr fbr rest, conds, acc =>
    crawlEs flag rest conds
      (crawlBT flag fbr (conds ++ [negCond c]) (crawlBT flag tbr (conds ++ [c]) acc))

end

/-- `app.read_strategies_from_tree`: the strategy set collected by
`crawl` from the root with no accumulated conditions, starting empty. -/
def read_strategies_from_tree (flag : Bool) (bt : BT) : List Strategy :=
  crawlBT flag bt [] []

/-- `app.convert_tree_to_strategies`: parse then enumerate. -/
def convert_tree_to_strategies (flag : Bool) (s : String) (fuel : Nat) :
    Except PErr (List Strategy) :=
  (parse_tree s fuel).map (read_strategies_from_tree flag)

/-!
Correctness of the contradiction filter (`is_not_always_false`): the
per-feature grouping plus nested pair loop rejects exactly the condition
lists holding a contradictory pair in the sense of the specification.
-/

/-- The specification's notion of a contradictory pair (§4.5): the same
feature with either two equalities asserting different values, or an
equality and an inequality on the identical value. -/
def specContradictoryPair (a b : Condition) : Prop :=
  a.feature = b.feature ∧
    ((a.is_equal = true ∧ b.is_equal = true ∧ a.value ≠ b.value) ∨
     (a.value = b.value ∧ a.is_equal ≠ b.is_equal))

lemma pairContra_iff (a b : Condition) :
    pairContra a b = true ↔ specContradictoryPair a b := by
  simp only [pairContra, specContradictoryPair, Bool.or_eq_true, Bool.and_eq_true,
    beq_iff_eq, bne_iff_ne, ne_eq]
  constructor
  · rintro (⟨⟨hf, hv⟩, he⟩ | ⟨⟨hf, hv⟩, he⟩)
    · exact ⟨hf, Or.inl ⟨he.1, he.2, hv⟩⟩
    · exact ⟨hf, Or.inr ⟨hv, he⟩⟩
  · rintro ⟨hf, ⟨ha, hb, hv⟩ | ⟨hv, he⟩⟩
    · exact Or.inl ⟨⟨hf, hv⟩, ha, hb⟩
    · exact Or.inr ⟨⟨hf, hv⟩, he⟩

lemma pairContra_of_ne_feature (a b : Condition) (h : a.feature ≠ b.feature) :
    pairContra a b = false := by
  have hb : (a.feature == b.feature) = false := beq_eq_false_iff_ne.2 h
  simp [pairContra, hb]

lemma groupHasContra_eq_false_iff (l : List Condition) :
    groupHasContra l = false ↔ l.Pairwise (fun a b => pairContra a b = false) := by
  induction l with
  | nil => simp [groupHasContra]
  | cons c rest ih =>
    simp only [groupHasContra, Bool.or_eq_false_iff, List.any_eq_false,
      List.pairwise_cons, ih, Bool.not_eq_true]

/-- Keys of the grouping dict. -/
def keysG (d : List (String × List Condition)) : List String :=
  d.map Prod.fst

lemma appendGroup_keys (d : List (String × List Condition)) (k : String) (c : Condition) :
    keysG (appendGroup d k c) = if k ∈ keysG d then keysG d else keysG d ++ [k] := by
  induction d with
  | nil => simp [appendGroup, keysG]
  | cons p rest ih =>
    obtain ⟨k0, g0⟩ := p
    by_cases h : k0 = k
    · subst h
      simp [appendGroup, keysG]
    · simp only [appendGroup, if_neg h, keysG, List.map_cons] at ih ⊢
      rw [ih]
      by_cases hk : k ∈ List.map Prod.fst rest
      · simp [hk, Ne.symm h]
      · simp [hk, Ne.symm h]

lemma appendGroup_mem_fwd (k : String) (c : Condition) (p : String × List Condition) :
    ∀ d : List (String × List Condition), (keysG d).Nodup → p ∈ appendGroup d k c →
      (p ∈ d ∧ p.1 ≠ k) ∨ (∃ g, (k, g) ∈ d ∧ p = (k, g ++ [c])) ∨
        (k ∉ keysG d ∧ p = (k, [c])) := by
  intro d
  induction d with
  | nil =>
    intro _ hp
    simp only [appendGroup, List.mem_singleton] at hp
    exact Or.inr (Or.inr ⟨by simp [keysG], hp⟩)
  | cons q rest ih =>
    obtain ⟨k0, g0⟩ := q
    intro hnd hp
    simp only [keysG, List.map_cons, List.nodup_cons] at hnd
    by_cases h : k0 = k
    · subst h
      simp only [appendGroup, if_pos rfl, List.mem_cons] at hp
      rcases hp with hp | hp
      · exact Or.inr (Or.inl ⟨g0, List.mem_cons_self _ _, rfl⟩)
      · rename_i hmem
        refine Or.inl ⟨List.mem_cons_of_mem _ hmem, ?_⟩
        intro hk
        exact hnd.1 (hk ▸ List.mem_map_of_mem Prod.fst hmem)
    · simp only [appendGroup, if_neg h, List.mem_cons] at hp
      rcases hp with hp | hp
      · subst hp
        exact Or.inl ⟨List.mem_cons_self _ _, h⟩
      · rcases ih hnd.2 hp with ⟨hmem, hne⟩ | ⟨g, hg, hpe⟩ | ⟨hk, hpe⟩
        · exact Or.inl ⟨List.mem_cons_of_mem _ hmem, hne⟩
        · exact Or.inr (Or.inl ⟨g, List.mem_cons_of_mem _ hg, hpe⟩)
        · refine Or.inr (Or.inr ⟨?_, hpe⟩)
          simp only [keysG, List.map_cons, List.mem_cons]
          rintro (hk0 | hk1)
          · exact h hk0.symm
          · exact hk (by simpa [keysG] using hk1)

/-- Invariant of the grouping fold: every group equals the filter of the
processed prefix by its key, every processed condition's feature is a
key, and the keys are distinct. -/
def GroupInv (acc : List (String × List Condition)) (pr : List Condition) : Prop :=
  (∀ p ∈ acc, p.2 = pr.filter (fun c => c.feature == p.1)) ∧
    (∀ c ∈ pr, c.feature ∈ keysG acc) ∧ (keysG acc).Nodup

lemma GroupInv_step (acc : List (String × List Condition)) (pr : List Condition)
    (x : Condition) (h : GroupInv acc pr) :
    GroupInv (appendGroup acc x.feature x) (pr ++ [x]) := by
  obtain ⟨h1, h2, h3⟩ := h
  have hfilter_of_not_key : x.feature ∉ keysG acc →
      pr.filter (fun c => c.feature == x.feature) = [] := by
    intro hk
    rw [List.filter_eq_nil_iff]
    intro c hc
    simp only [beq_iff_eq]
    intro hfe
    exact hk (hfe ▸ h2 c hc)
  refine ⟨?_, ?_, ?_⟩
  · intro p hp
    rcases appendGroup_mem_fwd x.feature x p acc h3 hp with
      ⟨hmem, hne⟩ | ⟨g, hg, hpe⟩ | ⟨hk, hpe⟩
    · rw [h1 p hmem, List.filter_append]
      have hb : (x.feature == p.1) = false := beq_eq_false_iff_ne.2 (Ne.symm hne)
      have : [x].filter (fun c => c.feature == p.1) = [] := by
        simp [List.filter, hb]
      rw [this, List.append_nil]
    · subst hpe
      rw [List.filter_append]
      have hg1 : g = pr.filter (fun c => c.feature == x.feature) := h1 (x.feature, g) hg
      simp [← hg1, List.filter]
    · subst hpe
      simp [List.filter_append, hfilter_of_not_key hk, List.filter]
  · intro c hc
    rw [appendGroup_keys]
    rcases List.mem_append.1 hc with hc | hc
    · have := h2 c hc
      split_ifs <;> simp [this]
    · simp only [List.mem_singleton] at hc
      subst hc
      split_ifs with hk <;> simp [hk]
  · rw [appendGroup_keys]
    split_ifs with hk
    · exact h3
    · simpa [List.nodup_append] using ⟨h3, fun h => hk h⟩

lemma groupFold_inv (conds : List Condition) :
    ∀ (acc : List (String × List Condition)) (pr : List Condition), GroupInv acc pr →
      GroupInv (conds.foldl (fun a c => appendGroup a c.feature c) acc) (pr ++ conds) := by
  induction conds with
  | nil => intro acc pr h; simpa using h
  | cons c cs ih =>
    intro acc pr h
    have := ih (appendGroup acc c.feature c) (pr ++ [c]) (GroupInv_step acc pr c h)
    simpa using this

lemma groupByFeature_inv (conds : List Condition) :
    GroupInv (groupByFeature conds) conds := by
  have := groupFold_inv conds [] [] (by refine ⟨?_, ?_, ?_⟩ <;> simp [keysG])
  simpa [groupByFeature] using this

/-- Conditions pairwise compatible inside every feature class are
pairwise compatible overall, because cross-feature pairs are never
contradictory. -/
lemma pairwise_of_filter_feature (conds : List Condition)
    (h : ∀ f, (conds.filter (fun c => c.feature == f)).Pairwise
      (fun a b => pairContra a b = false)) :
    conds.Pairwise (fun a b => pairContra a b = false) := by
  induction conds with
  | nil => exact List.Pairwise.nil
  | cons c rest ih =>
    refine List.pairwise_cons.2 ⟨?_, ?_⟩
    · intro b hb
      by_cases hf : c.feature = b.feature
      · have hc := h c.feature
        rw [List.filter_cons_of_pos (by simp)] at hc
        exact (List.pairwise_cons.1 hc).1 b
          (List.mem_filter.2 ⟨hb, by simp [hf.symm]⟩)
      · exact pairContra_of_ne_feature c b hf
    · refine ih (fun f => ?_)
      have hf := h f
      by_cases hcf : c.feature = f
      · rw [List.filter_cons_of_pos (by simp [hcf])] at hf
        exact (List.pairwise_cons.1 hf).2
      · rwa [List.filter_cons_of_neg (by simp [hcf])] at hf

/-- `Strategy.is_not_always_false` accepts exactly the condition lists
with no contradictory pair (in the code's `pairContra` sense). -/
lemma is_not_always_false_iff_pairwise (conds : List Condition) :
    is_not_always_false conds = true ↔
      conds.Pairwise (fun a b => pairContra a b = false) := by
  obtain ⟨h1, h2, h3⟩ := groupByFeature_inv conds
  simp only [is_not_always_false, Bool.not_eq_true', List.any_eq_false,
    Bool.not_eq_true]
  constructor
  · intro h
    refine pairwise_of_filter_feature conds (fun f => ?_)
    by_cases hk : f ∈ keysG (groupByFeature conds)
    · obtain ⟨p, hp, hpf⟩ := List.mem_map.1 hk
      have := (groupHasContra_eq_false_iff p.2).1 (h p hp)
      rwa [h1 p hp, hpf] at this
    · have : conds.filter (fun c => c.feature == f) = [] := by
        rw [List.filter_eq_nil_iff]
        intro c hc
        simp only [beq_iff_eq]
        intro hfe
        exact hk (hfe ▸ h2 c hc)
      rw [this]
      exact List.Pairwise.nil
  · intro h p hp
    rw [groupHasContra_eq_false_iff, h1 p hp]
    exact h.sublist (List.filter_sublist conds)

/-!
Parser lemmas: behavior of the parsing loop on duplicate identifiers and
on blank-only input.
-/

/-- Whether a parse outcome is a success. -/
def isOkE (e : Except PErr Entry) : Bool :=
  match e with
  | .ok _ => true
  | .error _ => false

/-- The leading identifiers of the non-blank lines, in order. -/
def nonblankIds (lines : List String) : List String :=
  (lines.filter (fun l => !l.data.isEmpty)).map lineId

lemma treeGet_insert (t : Tree) (k : String) (v : Entry) (k2 : String) :
    treeGet (treeInsert t k v) k2 = if k2 = k then some v else treeGet t k2 := by
  induction t with
  | nil =>
    by_cases h : k2 = k
    · simp [treeInsert, treeGet, List.find?, h]
    · simp [treeInsert, treeGet, List.find?, h, beq_eq_false_iff_ne.2 (Ne.symm h)]
  | cons p rest ih =>
    obtain ⟨k0, v0⟩ := p
    by_cases h0 : k0 = k
    · subst h0
      by_cases h2 : k2 = k0
      · simp [treeInsert, treeGet, List.find?, h2]
      · simp [treeInsert, treeGet, List.find?, h2,
          beq_eq_false_iff_ne.2 (Ne.symm h2)]
    · by_cases h2 : k2 = k0
      · subst h2
        simp [treeInsert, treeGet, List.find?, beq_eq_false_iff_ne.2 h0, h0]
      · simp only [treeInsert, beq_eq_false_iff_ne.2 h0, Bool.false_eq_true,
          if_false, treeGet, List.find?, beq_eq_false_iff_ne.2 (Ne.symm h2)]
        exact ih

lemma parseRowsGo_all_blank (lines : List String) :
    ∀ acc : Tree, (∀ line ∈ lines, line.data.isEmpty = true) →
      parseRowsGo lines acc = .ok acc := by
  induction lines with
  | nil => intro acc _; rfl
  | cons line rest ih =>
    intro acc h
    have hb := h line (List.mem_cons_self _ _)
    simp only [parseRowsGo, hb, if_true]
    exact ih acc (fun l hl => h l (List.mem_cons_of_mem _ hl))

lemma nonblankIds_append (l1 l2 : List String) :
    nonblankIds (l1 ++ l2) = nonblankIds l1 ++ nonblankIds l2 := by
  simp [nonblankIds, List.filter_append]

lemma nonblankIds_cons_blank (line : String) (rest : List String)
    (hb : line.data.isEmpty = true) :
    nonblankIds (line :: rest) = nonblankIds rest := by
  simp [nonblankIds, List.filter, hb]

lemma nonblankIds_cons_nonblank (line : String) (rest : List String)
    (hb : line.data.isEmpty = false) :
    nonblankIds (line :: rest) = lineId line :: nonblankIds rest := by
  simp [nonblankIds, List.filter, hb]

/-- Running the parsing loop over a prefix whose non-blank lines all
parse, have pairwise distinct identifiers, and are fresh for the
accumulator, followed by a non-blank line whose identifier already
occurred (in the accumulator or the prefix), stops at that line with the
duplicate-identifier error naming ITS identifier — the lines at and
after the collision are never parsed, since the duplicate check comes
first. -/
lemma parseRowsGo_first_dup (pre : List String) :
    ∀ (acc : Tree) (dup : String) (suf : List String),
      (∀ line ∈ pre, line.data.isEmpty = false → isOkE (parseTreeRow line) = true) →
      (∀ l ∈ nonblankIds pre, (treeGet acc l).isSome = false) →
      (nonblankIds pre).Nodup →
      dup.data.isEmpty = false →
      ((treeGet acc (lineId dup)).isSome = true ∨ lineId dup ∈ nonblankIds pre) →
      parseRowsGo (pre ++ dup :: suf) acc = .error (.duplicateId (lineId dup)) := by
  induction pre with
  | nil =>
    intro acc dup suf _ _ _ hdb hclash
    rcases hclash with hs | hmem
    · show parseRowsGo (dup :: suf) acc = _
      simp [parseRowsGo, hdb, hs]
    · exact absurd hmem (by simp [nonblankIds])
  | cons line pre ih =>
    intro acc dup suf hok hfresh hnd hdb hclash
    by_cases hb : line.data.isEmpty
    · have hids := nonblankIds_cons_blank line pre hb
      have hstep : parseRowsGo ((line :: pre) ++ dup :: suf) acc =
          parseRowsGo (pre ++ dup :: suf) acc := by
        simp [parseRowsGo, hb]
      rw [hstep]
      refine ih acc dup suf (fun l hl => hok l (List.mem_cons_of_mem _ hl))
        (fun l hl => hfresh l (by rw [hids]; exact hl)) (hids ▸ hnd) hdb ?_
      rcases hclash with hs | hmem
      · exact Or.inl hs
      · exact Or.inr (by rwa [hids] at hmem)
    · replace hb : line.data.isEmpty = false := by simpa using hb
      have hids := nonblankIds_cons_nonblank line pre hb
      have hfresh0 : (treeGet acc (lineId line)).isSome = false :=
        hfresh (lineId line) (by rw [hids]; exact List.mem_cons_self _ _)
      obtain ⟨entry, hentry⟩ : ∃ e, parseTreeRow line = .ok e := by
        have := hok line (List.mem_cons_self _ _) hb
        cases hpt : parseTreeRow line with
        | ok e => exact ⟨e, rfl⟩
        | error e => rw [hpt] at this; exact absurd this (by simp [isOkE])
      have hstep : parseRowsGo ((line :: pre) ++ dup :: suf) acc =
          parseRowsGo (pre ++ dup :: suf) (treeInsert acc (lineId line) entry) := by
        simp [parseRowsGo, hb, hfresh0, hentry]
      rw [hstep]
      rw [hids, List.nodup_cons] at hnd
      refine ih (treeInsert acc (lineId line) entry) dup suf
        (fun l hl => hok l (List.mem_cons_of_mem _ hl)) ?_ hnd.2 hdb ?_
      · intro l hl
        rw [treeGet_insert]
        split_ifs with hsame
        · exact absurd (hsame ▸ hl) hnd.1
        · exact hfresh l (by rw [hids]; exact List.mem_cons_of_mem _ hl)
      · rcases hclash with hs | hmem
        · refine Or.inl ?_
          rw [treeGet_insert]
          split_ifs
          · rfl
          · exact hs
        · rw [hids, List.mem_cons] at hmem
          rcases hmem with hmem | hmem
          · refine Or.inl ?_
            rw [treeGet_insert, if_pos hmem]
            rfl
          · exact Or.inr hmem

/-- Any line list whose non-blank identifiers repeat splits at the FIRST
repetition: a prefix with pairwise distinct non-blank identifiers,
followed by a non-blank line whose identifier already occurred in the
prefix. -/
lemma exists_first_clash (lines : List String) :
    ∀ pre0 : List String, (nonblankIds pre0).Nodup →
      ¬ (nonblankIds (pre0 ++ lines)).Nodup →
      ∃ pre dup suf, pre0 ++ lines = pre ++ dup :: suf ∧
        (nonblankIds pre).Nodup ∧ dup.data.isEmpty = false ∧
        lineId dup ∈ nonblankIds pre := by
  induction lines with
  | nil =>
    intro pre0 hnd hdup
    rw [List.append_nil] at hdup
    exact absurd hnd hdup
  | cons line rest ih =>
    intro pre0 hnd hdup
    have hassoc : pre0 ++ line :: rest = (pre0 ++ [line]) ++ rest := by
      rw [List.append_assoc]
      rfl
    by_cases hb : line.data.isEmpty
    · have h1 : nonblankIds (pre0 ++ [line]) = nonblankIds pre0 := by
        rw [nonblankIds_append, nonblankIds_cons_blank line [] hb]
        simp [nonblankIds]
      obtain ⟨pre, dup, suf, heq, h2, h3, h4⟩ :=
        ih (pre0 ++ [line]) (h1 ▸ hnd) (by rw [← hassoc]; exact hdup)
      exact ⟨pre, dup, suf, by rw [hassoc, heq], h2, h3, h4⟩
    · replace hb : line.data.isEmpty = false := by simpa using hb
      by_cases hcl : lineId line ∈ nonblankIds pre0
      · exact ⟨pre0, line, rest, rfl, hnd, hb, hcl⟩
      · have h1 : nonblankIds (pre0 ++ [line]) =
            nonblankIds pre0 ++ [lineId line] := by
          rw [nonblankIds_append, nonblankIds_cons_nonblank line [] hb]
          simp [nonblankIds]
        have hnd2 : (nonblankIds (pre0 ++ [line])).Nodup := by
          rw [h1]
          simp [List.nodup_append, hnd, hcl]
        obtain ⟨pre, dup, suf, heq, h2, h3, h4⟩ :=
          ih (pre0 ++ [line]) hnd2 (by rw [← hassoc]; exact hdup)
        exact ⟨pre, dup, suf, by rw [hassoc, heq], h2, h3, h4⟩

/-!
Relating the two settings of the always-false filter: the run with the
flag enabled produces exactly the satisfiable strategies of the run with
the flag disabled.
-/

/-- The test the enabled filter applies to an emitted strategy. -/
def keepStrategy (s : Strategy) : Bool :=
  is_not_always_false s.conditions

lemma filter_pySetAdd (acc : List Strategy) (s : Strategy) :
    (pySetAdd acc s).filter keepStrategy =
      if keepStrategy s then pySetAdd (acc.filter keepStrategy) s
      else acc.filter keepStrategy := by
  by_cases hmem : s ∈ acc
  · have hmf : keepStrategy s = true → s ∈ acc.filter keepStrategy :=
      fun hk => List.mem_filter.2 ⟨hmem, hk⟩
    cases hk : keepStrategy s <;>
      simp [pySetAdd, hmem, hk, hmf]
  · have hmf : s ∉ acc.filter keepStrategy :=
      fun h => hmem (List.mem_filter.1 h).1
    cases hk : keepStrategy s <;>
      simp [pySetAdd, hmem, hk, hmf, List.filter_append, List.filter, hk]

lemma crawlBT_filter (bt : BT) :
    ∀ (conds : List Condition) (acc : List Strategy),
      crawlBT true bt conds (acc.filter keepStrategy) =
        (crawlBT false bt conds acc).filter keepStrategy := by
  refine @BT.rec
    (fun bt => ∀ conds acc, crawlBT true bt conds (acc.filter keepStrategy) =
      (crawlBT false bt conds acc).filter keepStrategy)
    (fun es => ∀ conds acc, crawlEs true es conds (acc.filter keepStrategy) =
      (crawlEs false es conds acc).filter keepStrategy)
    ?_ ?_ ?_ ?_ ?_ bt
  · intro l conds acc
    have h := filter_pySetAdd acc ⟨conds, l⟩
    simp only [crawlBT, Bool.not_true, Bool.false_or, Bool.not_false, Bool.true_or,
      if_true] at h ⊢
    rw [h]
    rfl
  · intro conds acc
    rfl
  · intro es ihe conds acc
    exact ihe conds acc
  · intro conds acc
    rfl
  · intro c tbr fbr rest iht ihf ihr conds acc
    simp only [crawlEs]
    rw [iht, ihf, ihr]

/-!
The claims.
-/

/-- C1: on the OR tree `0:[device_type=pc||or||support=mobile] yes=1,no=2`
with leaves 0.1/0.2, `convert_tree_to_strategies` returns exactly the
three strategies `device_type=pc -> 0.1`, `support=mobile -> 0.1` and
`device_type!=pc & support!=mobile -> 0.2` — whichever way the
always-false filter is set, since none of the three is contradictory —
with no fourth strategy for the (pc true, mobile true) path and no
strategy twice (the three listed set elements are pairwise distinct). -/
theorem or_expansion_three_strategies :
    (∀ flag : Bool,
      convert_tree_to_strategies flag
        "0:[device_type=pc||or||support=mobile] yes=1,no=2\n1:leaf=0.1\n2:leaf=0.2" 100 =
        .ok [⟨[⟨"device_type", "pc", true⟩], ⟨mkRat 1 10⟩⟩,
             ⟨[⟨"device_type", "pc", false⟩, ⟨"support", "mobile", false⟩], ⟨mkRat 2 10⟩⟩,
             ⟨[⟨"support", "mobile", true⟩], ⟨mkRat 1 10⟩⟩])
    ∧ ([⟨[⟨"device_type", "pc", true⟩], ⟨mkRat 1 10⟩⟩,
        ⟨[⟨"device_type", "pc", false⟩, ⟨"support", "mobile", false⟩], ⟨mkRat 2 10⟩⟩,
        ⟨[⟨"support", "mobile", true⟩], ⟨mkRat 1 10⟩⟩] : List Strategy).Nodup := by
  exact ⟨by decide, by decide⟩

/-- C2 counterexample: a node line whose condition expression holds two
`||or||` combinators (three operands) parses successfully into a Node
carrying all three conditions — parsing does NOT fail, and no
UnsupportedCombinator error exists anywhere in the code. -/
theorem multi_or_counterexample :
    Node.from_standardized_string "0:[a=x||or||b=y||or||c=z] yes=1,no=2" =
      .ok ⟨[⟨"a", "x", true⟩, ⟨"b", "y", true⟩, ⟨"c", "z", true⟩], "1", "2"⟩ := rfl

/-- C2 (amended): a node line with more than one `||or||` parses into a
Node with all operands, without any error; the normalizer then treats
such a node (condition count ≠ 2) as a single-condition node, splitting
on the FIRST operand only and silently ignoring the rest, so the
pipeline yields the two strategies of a plain `a=x` split. -/
theorem multi_or_silent_truncation :
    parse_tree "0:[a=x||or||b=y||or||c=z] yes=1,no=2\n1:leaf=0.1\n2:leaf=0.2" 100 =
      .ok (.split (.cons ⟨"a", "x", true⟩ (.leaf ⟨mkRat 1 10⟩) (.leaf ⟨mkRat 2 10⟩) .nil))
    ∧ (∀ flag : Bool,
      convert_tree_to_strategies flag
        "0:[a=x||or||b=y||or||c=z] yes=1,no=2\n1:leaf=0.1\n2:leaf=0.2" 100 =
        .ok [⟨[⟨"a", "x", true⟩], ⟨mkRat 1 10⟩⟩, ⟨[⟨"a", "x", false⟩], ⟨mkRat 2 10⟩⟩]) := by
  exact ⟨rfl, by decide⟩

/-- C3: with filtering enabled, a strategy reached at a leaf is discarded
exactly when `is_not_always_false` rejects its conditions, and
`is_not_always_false` accepts exactly the condition lists whose pairs are
all non-contradictory in the spec's sense (same feature with two distinct
equality values, or same feature and value with opposite polarity); in
particular `device_type=pc & device_type=mobile` is discarded while
`device_type!=pc & device_type!=gameboy` is kept. -/
theorem contradiction_filter_iff :
    (∀ conds : List Condition, is_not_always_false conds = true ↔
      conds.Pairwise (fun a b => ¬ specContradictoryPair a b))
    ∧ (∀ (l : Leaf) (conds : List Condition) (acc : List Strategy),
        crawlBT true (.leaf l) conds acc =
          if is_not_always_false conds then pySetAdd acc ⟨conds, l⟩ else acc)
    ∧ is_not_always_false
        [⟨"device_type", "pc", true⟩, ⟨"device_type", "mobile", true⟩] = false
    ∧ is_not_always_false
        [⟨"device_type", "pc", false⟩, ⟨"device_type", "gameboy", false⟩] = true := by
  refine ⟨?_, fun l conds acc => rfl, by decide, by decide⟩
  intro conds
  rw [is_not_always_false_iff_pairwise]
  constructor
  · refine fun h => h.imp ?_
    intro a b hab hs
    exact absurd ((pairContra_iff a b).2 hs) (by simp [hab])
  · refine fun h => h.imp ?_
    intro a b hab
    exact Bool.eq_false_iff.2 (fun ht => hab ((pairContra_iff a b).1 ht))

/-- C4: the single-condition tree `0:[device_type=pc] yes=1,no=2` with
leaves 0.1/0.2 yields exactly `device_type=pc -> 0.1` and
`device_type!=pc -> 0.2`; in general, at any split entry the true branch
is crawled with the condition appended and the false branch with its
negation appended, where negation flips `is_equal` and keeps feature and
value. -/
theorem single_condition_split :
    (∀ flag : Bool,
      convert_tree_to_strategies flag
        "0:[device_type=pc] yes=1,no=2\n1:leaf=0.1\n2:leaf=0.2" 100 =
        .ok [⟨[⟨"device_type", "pc", true⟩], ⟨mkRat 1 10⟩⟩,
             ⟨[⟨"device_type", "pc", false⟩], ⟨mkRat 2 10⟩⟩])
    ∧ (∀ (flag : Bool) (c : Condition) (tbr fbr : BT) (rest : BEntries)
        (conds : List Condition) (acc : List Strategy),
        crawlEs flag (.cons c tbr fbr rest) conds acc =
          crawlEs flag rest conds
            (crawlBT flag fbr (conds ++ [⟨c.feature, c.value, !c.is_equal⟩])
              (crawlBT flag tbr (conds ++ [c]) acc)))
    ∧ (∀ c : Condition, negCond c = ⟨c.feature, c.value, !c.is_equal⟩) := by
  exact ⟨by decide, fun flag c tbr fbr rest conds acc => rfl, fun c => rfl⟩

/-- C5: constructing a Leaf with value `v` succeeds (returning `v`
unchanged, never clamped) exactly when `0 <= v <= 1`; the boundaries 0
and 1 succeed, and any value strictly below 0 or strictly above 1 raises
the validation error at construction time. -/
theorem leaf_range_iff :
    (∀ v : ℚ, (∃ l : Leaf, mkLeaf v = .ok l ∧ l.value = v) ↔ 0 ≤ v ∧ v ≤ 1)
    ∧ mkLeaf 0 = .ok ⟨0⟩ ∧ mkLeaf 1 = .ok ⟨1⟩
    ∧ (∀ v : ℚ, v < 0 → mkLeaf v = .error (.invalidLeafValue v))
    ∧ (∀ v : ℚ, 1 < v → mkLeaf v = .error (.invalidLeafValue v)) := by
  refine ⟨?_, by decide, by decide, ?_, ?_⟩
  · intro v
    constructor
    · rintro ⟨l, hl, _⟩
      by_cases h : 0 ≤ v ∧ v ≤ 1
      · exact h
      · simp [mkLeaf, h] at hl
    · intro h
      exact ⟨⟨v⟩, by simp [mkLeaf, h], rfl⟩
  · intro v hv
    have h : ¬ (0 ≤ v ∧ v ≤ 1) := fun hc => absurd hc.1 (not_le.2 hv)
    simp [mkLeaf, h]
  · intro v hv
    have h : ¬ (0 ≤ v ∧ v ≤ 1) := fun hc => absurd hc.2 (not_le.2 hv)
    simp [mkLeaf, h]

/-- C5 witness: the theorem applied at −1/2 and 3/2. -/
theorem leaf_range_iff_witness :
    mkLeaf (mkRat (-1) 2) = .error (.invalidLeafValue (mkRat (-1) 2)) ∧
    mkLeaf (mkRat 3 2) = .error (.invalidLeafValue (mkRat 3 2)) :=
  ⟨leaf_range_iff.2.2.2.1 _ (by decide), leaf_range_iff.2.2.2.2 _ (by decide)⟩

/-- C6: the input consisting solely of `0:leaf=0.0` parses to a bare
Leaf, and `parse_tree` rejects it with the NodelessTree error (for every
recursion budget that lets the conversion run at all); the full pipeline
therefore also fails with NodelessTree and emits no strategy set. -/
theorem nodeless_tree_error :
    (∀ fuel : Nat, parse_tree "0:leaf=0.0" (fuel + 1) = .error .nodelessTree)
    ∧ (∀ (flag : Bool) (fuel : Nat),
      convert_tree_to_strategies flag "0:leaf=0.0" (fuel + 1) = .error .nodelessTree) :=
  ⟨fun _ => rfl, fun _ _ => rfl⟩

/-- C7 counterexample: the input `1:leaf=9.0\n1:leaf=9.0` has two
non-blank lines sharing the leading identifier `1`, yet parsing fails
with the invalid-leaf-value error of line one — raised before the
duplicate check of line two is ever reached — not with the
duplicate-identifier error the claim requires for every such input. -/
theorem duplicate_id_counterexample :
    parse_tree "1:leaf=9.0\n1:leaf=9.0" 100 =
      .error (.invalidLeafValue (mkRat 9 1)) := rfl

/-- C7 (amended): split the input's stripped lines at the FIRST
repetition of a non-blank leading identifier: a prefix `pre` whose
non-blank identifiers are pairwise distinct, then the first non-blank
line `dup` whose identifier already occurred in `pre`. Provided each
non-blank line of `pre` parses as a row (the counterexample shows an
earlier malformed line preempts with its own error; lines from `dup` on
need not parse, the duplicate check precedes row parsing), parsing fails
with the duplicate-identifier error naming exactly that repeated
identifier, which occurs on at least two non-blank lines — whatever the
kinds (leaf/node) of the colliding lines. The second part shows every
input with a repeated non-blank identifier admits such a
first-repetition split, so the amendment covers every input of the
original claim. -/
theorem duplicate_id_amended :
    (∀ (s : String) (fuel : Nat) (pre : List String) (dup : String)
        (suf : List String),
      parsedLines s = pre ++ dup :: suf →
      (∀ line ∈ pre, line.data.isEmpty = false → isOkE (parseTreeRow line) = true) →
      (nonblankIds pre).Nodup →
      dup.data.isEmpty = false →
      lineId dup ∈ nonblankIds pre →
      parse_tree s fuel = .error (.duplicateId (lineId dup)) ∧
        2 ≤ (nonblankIds (parsedLines s)).count (lineId dup))
    ∧ (∀ lines : List String, ¬ (nonblankIds lines).Nodup →
      ∃ pre dup suf, lines = pre ++ dup :: suf ∧ (nonblankIds pre).Nodup ∧
        dup.data.isEmpty = false ∧ lineId dup ∈ nonblankIds pre) := by
  constructor
  · intro s fuel pre dup suf hsplit hok hnd hdb hclash
    have herr : parseRowsGo (parsedLines s) [] = .error (.duplicateId (lineId dup)) := by
      rw [hsplit]
      exact parseRowsGo_first_dup pre [] dup suf hok
        (fun l _ => rfl) hnd hdb (Or.inr hclash)
    constructor
    · simp only [parse_tree, herr]
      rfl
    · rw [hsplit, nonblankIds_append, nonblankIds_cons_nonblank dup suf hdb,
        List.count_append, List.count_cons_self]
      have h1 : 0 < (nonblankIds pre).count (lineId dup) :=
        List.count_pos_iff.2 hclash
      omega
  · intro lines hdup
    simpa using exists_first_clash lines [] (by simp [nonblankIds]) (by simpa using hdup)

/-- C7 witness: the amended theorem applied to two leaf lines sharing
the identifier 0 (prefix `0:leaf=0.1`, colliding line `0:leaf=0.2`). -/
theorem duplicate_id_amended_witness :
    parse_tree "0:leaf=0.1\n0:leaf=0.2" 50 = .error (.duplicateId "0") ∧
      2 ≤ (nonblankIds (parsedLines "0:leaf=0.1\n0:leaf=0.2")).count "0" :=
  duplicate_id_amended.1 "0:leaf=0.1\n0:leaf=0.2" 50 ["0:leaf=0.1"] "0:leaf=0.2" []
    (by decide) (by decide) (by decide) (by decide) (by decide)

/-- C8: enumeration with the always-false filter enabled returns exactly
the satisfiable strategies of the enumeration with the filter disabled —
filtering discards per strategy and never aborts; with the flag off a
leaf always adds its strategy to the set. Concretely, the nested tree
whose pc∧mobile path is contradictory keeps that strategy when the
switch is off and drops exactly it when the switch is on. -/
theorem filter_switch_semantics :
    (∀ bt : BT, read_strategies_from_tree true bt =
      (read_strategies_from_tree false bt).filter keepStrategy)
    ∧ (∀ (l : Leaf) (conds : List Condition) (acc : List Strategy),
        crawlBT false (.leaf l) conds acc = pySetAdd acc ⟨conds, l⟩)
    ∧ convert_tree_to_strategies false
        "0:[device_type=pc] yes=1,no=2\n1:[device_type=mobile] yes=3,no=4\n2:leaf=0.2\n3:leaf=0.3\n4:leaf=0.4" 100 =
      .ok [⟨[⟨"device_type", "pc", true⟩, ⟨"device_type", "mobile", true⟩], ⟨mkRat 3 10⟩⟩,
           ⟨[⟨"device_type", "pc", true⟩, ⟨"device_type", "mobile", false⟩], ⟨mkRat 4 10⟩⟩,
           ⟨[⟨"device_type", "pc", false⟩], ⟨mkRat 2 10⟩⟩]
    ∧ convert_tree_to_strategies true
        "0:[device_type=pc] yes=1,no=2\n1:[device_type=mobile] yes=3,no=4\n2:leaf=0.2\n3:leaf=0.3\n4:leaf=0.4" 100 =
      .ok [⟨[⟨"device_type", "pc", true⟩, ⟨"device_type", "mobile", false⟩], ⟨mkRat 4 10⟩⟩,
           ⟨[⟨"device_type", "pc", false⟩], ⟨mkRat 2 10⟩⟩] := by
  refine ⟨?_, fun l conds acc => rfl, by decide, by decide⟩
  intro bt
  have h := crawlBT_filter bt [] []
  simpa [read_strategies_from_tree] using h

/-- C9: an input whose stripped lines are all blank (the empty string
included) leaves the parsed dict empty, and `parse_tree` fails with the
StopIteration of `next(iter(...))` during root resolution — not with
NodelessTree nor any parse error. -/
theorem blank_input_stop_iteration :
    (∀ (s : String) (fuel : Nat),
      (∀ line ∈ parsedLines s, line.data.isEmpty = true) →
      parse_tree s fuel = .error .stopIteration)
    ∧ parse_tree "" 100 = .error .stopIteration := by
  refine ⟨?_, rfl⟩
  intro s fuel h
  have h1 : parseRowsGo (parsedLines s) [] = .ok [] :=
    parseRowsGo_all_blank (parsedLines s) [] h
  simp only [parse_tree, h1]
  rfl

/-- C9 witness: the theorem applied to an input of blank lines. -/
theorem blank_input_stop_iteration_witness :
    parse_tree "\n   \n" 7 = .error .stopIteration :=
  blank_input_stop_iteration.1 "\n   \n" 7 (by decide)

/-- C10: when a two-condition node repeats the identical condition
(`device_type=pc||or||device_type=pc`), the two keys of the expanded
dict collide and the second entry overwrites the first, leaving a single
entry whose branches are the yes-leaf and the skip sentinel; the
resulting strategy set is exactly the singleton `device_type=pc -> 0.1`,
and no strategy for the no-branch is emitted. -/
theorem identical_or_operands_collapse :
    parse_tree "0:[device_type=pc||or||device_type=pc] yes=1,no=2\n1:leaf=0.1\n2:leaf=0.2" 100 =
      .ok (.split (.cons ⟨"device_type", "pc", true⟩ (.leaf ⟨mkRat 1 10⟩) .skip .nil))
    ∧ (∀ flag : Bool,
      convert_tree_to_strategies flag
        "0:[device_type=pc||or||device_type=pc] yes=1,no=2\n1:leaf=0.1\n2:leaf=0.2" 100 =
        .ok [⟨[⟨"device_type", "pc", true⟩], ⟨mkRat 1 10⟩⟩]) := by
  exact ⟨rfl, by decide⟩

end DTS
